import Mathlib

/-!
Verification of the casambi-bt BLE client library core.

Byte strings are modelled as `List Nat`, one natural number per byte.  The
AES-128 block primitive and the library AES-CMAC are external collaborators
(`cryptography.hazmat`); an `Encryptor` carries them as abstract functions,
while the CTR mode built on top of the block primitive
(`Encryptor._encryptInternal`), the encrypt-then-MAC framing, the operation
builder, the keystore, the inbound packet parsers and the client send path
are translated from the source (`_encryption.py`, `_operation.py`,
`_keystore.py`, `_client.py`).
-/

namespace CasambiBt

/-- Byte strings: one `Nat` per byte. -/
abbrev Bytes := List Nat

/-- Python exception kinds raised by the modelled code paths. -/
inductive PyError where
  | invalidSignature
  | valueError
  | structError
  | indexError
  | connectionStateError
  | overflowError
deriving DecidableEq, Repr

/-- `int.to_bytes(len, "little")`, value taken byte by byte. -/
def toBytesLE : Nat → Nat → Bytes
  | 0, _ => []
  | len + 1, n => n % 256 :: toBytesLE len (n / 256)

/-- `int.to_bytes(len, "big")`. -/
def toBytesBE (len n : Nat) : Bytes := (toBytesLE len n).reverse

/-- Read a little-endian byte string back as a number. -/
def fromBytesLE (bs : Bytes) : Nat := bs.foldr (fun b acc => b + 256 * acc) 0

/-- `_xor` from `_encryption.py`: byte-wise xor of two equal-length strings. -/
def bytesXor (data key : Bytes) : Bytes := List.zipWith (fun a b => a ^^^ b) data key

/-- The `Encryptor` of `_encryption.py`.  The AES-128 block encryption under
the transport key and the library AES-CMAC are external primitives and appear
as abstract functions. -/
structure Encryptor where
  blockEnc : Bytes → Bytes
  cmacF : Bytes → Bytes

/-- A block cipher always produces 16-byte blocks (true of AES-128-ECB). -/
def GoodBlockCipher (f : Bytes → Bytes) : Prop := ∀ x, (f x).length = 16

/-- A MAC always produces 16-byte tags (true of AES-CMAC). -/
def GoodMac (f : Bytes → Bytes) : Prop := ∀ x, (f x).length = 16

/-- The block loop of `Encryptor._encryptInternal`, with an explicit
structural fuel so that the definition reduces by iota in the kernel; the
wrapper `ctrBlocks` supplies `packet.length`, which always suffices since
every round consumes at least one byte.  For each 16-byte chunk the last 4
nonce bytes are overwritten with the little-endian block counter, the nonce
is block-encrypted and xored with the chunk. -/
def ctrBlocksFuel (blockEnc : Bytes → Bytes) (nonce : Bytes) :
    Nat → Nat → Bytes → Bytes
  | 0, _, _ => []
  | fuel + 1, counter, packet =>
    if packet = [] then []
    else
      let block := blockEnc (nonce.take 12 ++ toBytesLE 4 counter)
      bytesXor (block.take (min 16 packet.length)) (packet.take 16) ++
        ctrBlocksFuel blockEnc nonce fuel (counter + 1) (packet.drop 16)

/-- The block loop of `Encryptor._encryptInternal`
(`for i in range(0, len(packet), 16)` with a per-block counter). -/
def ctrBlocks (blockEnc : Bytes → Bytes) (nonce : Bytes) (counter : Nat) (packet : Bytes) :
    Bytes :=
  ctrBlocksFuel blockEnc nonce packet.length counter packet

/-- `Encryptor._encryptInternal`: manual AES-CTR over a 16-byte nonce.
Raises `ValueError` when the nonce is not 16 bytes long. -/
def Encryptor.encryptInternal (e : Encryptor) (packet nonce : Bytes) : Except PyError Bytes :=
  if nonce.length ≠ 16 then .error .valueError
  else .ok (ctrBlocks e.blockEnc nonce 0 packet)

/-- `Encryptor.encryptThenMac`: encrypt the body after the clear header in
CTR mode, then append the CMAC over header plus ciphertext.  The source
defaults `headerLen` to 4; here it is an explicit argument. -/
def Encryptor.encryptThenMac (e : Encryptor) (packet nonce : Bytes) (headerLen : Nat) :
    Except PyError Bytes :=
  match e.encryptInternal (packet.drop headerLen) nonce with
  | .error err => .error err
  | .ok ct =>
      let authed := packet.take headerLen ++ ct
      .ok (authed ++ e.cmacF authed)

/-- `Encryptor.decryptAndVerify`: split off the 16-byte tag, always decrypt the
body after the header, then verify the CMAC over the remaining frame; on
mismatch raise `InvalidSignature`.  Returns only the decrypted body.  The
source defaults `headerLen` to 4; here it is an explicit argument. -/
def Encryptor.decryptAndVerify (e : Encryptor) (packet nonce : Bytes) (headerLen : Nat) :
    Except PyError Bytes :=
  let ciphertext := packet.take (packet.length - 16)
  let packetMac := packet.drop (packet.length - 16)
  match e.encryptInternal (ciphertext.drop headerLen) nonce with
  | .error err => .error err
  | .ok plaintext =>
      if e.cmacF ciphertext = packetMac then .ok plaintext else .error .invalidSignature

instance {ε α : Type} [DecidableEq ε] [DecidableEq α] : DecidableEq (Except ε α) := fun a b =>
  match a, b with
  | .error e₁, .error e₂ =>
      if h : e₁ = e₂ then isTrue (by rw [h]) else isFalse (by simp [h])
  | .error _, .ok _ => isFalse (by simp)
  | .ok _, .error _ => isFalse (by simp)
  | .ok a₁, .ok a₂ =>
      if h : a₁ = a₂ then isTrue (by rw [h]) else isFalse (by simp [h])

/-- The opcodes of `_operation.py`. -/
inductive OpCode where
  | Response
  | SetLevel
  | SetVertical
  | SetWhite
  | SetColor
  | SetTemperature
  | SetState
deriving DecidableEq, Repr

/-- Numeric value of each opcode, as in the `IntEnum`. -/
def OpCode.toNat : OpCode → Nat
  | .Response => 0
  | .SetLevel => 1
  | .SetVertical => 4
  | .SetWhite => 5
  | .SetColor => 7
  | .SetTemperature => 10
  | .SetState => 48

/-- `OperationsContext.__init__` sets `origin = 1`, `lifetime = 5`. -/
structure OperationsContext where
  origin : Nat
  lifetime : Nat
deriving DecidableEq, Repr

/-- `OperationsContext.prepareOperation`.  Raises `ValueError` for payloads
longer than 63 bytes; `struct.pack(">HBHHH", ...)` raises `struct.error` when
the target does not fit 16 bits (the opcode always fits in a byte and the
flags and masked origin always fit 16 bits).  The updated context is returned
alongside; on an exception the context is unchanged, mirroring that the
source increments `self.origin` only after packing. -/
def prepareOperation (ctx : OperationsContext) (op : OpCode) (target : Nat)
    (payload : Bytes) : Except PyError Bytes × OperationsContext :=
  if 63 < payload.length then (.error .valueError, ctx)
  else
    let flags := (ctx.lifetime &&& 15) <<< 11 ||| payload.length
    if 2 ^ 16 ≤ target then (.error .structError, ctx)
    else
      (.ok (toBytesBE 2 flags ++ [op.toNat] ++ toBytesBE 2 (ctx.origin &&& (2 ^ 16 - 1)) ++
          toBytesBE 2 target ++ toBytesBE 2 0 ++ payload),
        { ctx with origin := ctx.origin + 1 })

/-- A network key (`_keystore.py`). -/
structure Key where
  id : Nat
  type : Nat
  role : Nat
  name : String
  key : Bytes
deriving DecidableEq, Repr

/-- The loop body of `KeyStore.getKey`: keep the current candidate unless the
next key has a strictly larger role (`key.role < k.role`). -/
def getKeyStep (key : Option Key) (k : Key) : Option Key :=
  match key with
  | none => some k
  | some key' => if key'.role < k.role then some k else some key'

/-- `KeyStore.getKey`: scan the stored keys in insertion order, replacing the
candidate whenever a strictly larger role is found. -/
def getKey (keys : List Key) : Option Key := keys.foldl getKeyStep none

/-- The connection state machine of `_constants.py`
(`NONE = 0, CONNECTED = 1, KEY_EXCHANGED = 2, AUTHENTICATED = 3, ERROR = 99`). -/
inductive ConnectionState where
  | NONE
  | CONNECTED
  | KEY_EXCHANGED
  | AUTHENTICATED
  | ERROR
deriving DecidableEq, Repr

/-- One unit-state record as handed to the data callback by
`_parseUnitStates` (the dict `{id, online, on, state}`). -/
structure UnitStateEvt where
  id : Nat
  online : Bool
  isOn : Bool
  state : Bytes
deriving DecidableEq, Repr

/-- `_parseUnitStates` of `_client.py`, written on the remaining suffix of the
body instead of an absolute position (`data[pos + i]` becomes `data.getD i 0`,
which the loop guard keeps in range).  Each iteration requires at least 4
remaining bytes, reads `id ‖ flags ‖ state_header`, skips the optional
con/sid/unknown bytes, slices the declared state bytes (a Python slice
truncates silently at the end of the buffer), skips the padding and emits one
callback record. -/
def unitFlagsSkip (flags : Nat) : Nat :=
  (if flags &&& 4 ≠ 0 then 1 else 0) + (if flags &&& 8 ≠ 0 then 1 else 0) +
    (if flags &&& 16 ≠ 0 then 1 else 0)

/-- The unit-state loop with explicit structural fuel (the wrapper passes
`data.length`, which always suffices since every iteration consumes at least
4 bytes); `unitFlagsSkip` counts the optional con/sid/unknown bytes. -/
def parseUnitStatesFuel : Nat → Bytes → List UnitStateEvt
  | 0, _ => []
  | fuel + 1, data =>
    if 4 ≤ data.length then
      let id := data.getD 0 0
      let flags := data.getD 1 0
      let stateLen := ((data.getD 2 0) >>> 4 &&& 15) + 1
      let skip := unitFlagsSkip flags
      let state := (data.drop (3 + skip)).take stateLen
      { id := id, online := decide (flags &&& 2 ≠ 0), isOn := decide (flags &&& 1 ≠ 0),
        state := state } ::
        parseUnitStatesFuel fuel (data.drop (3 + skip + stateLen + ((flags >>> 6) &&& 3)))
    else []

/-- `_parseUnitStates` proper: run the loop with fuel `data.length`, which
always suffices since every iteration consumes at least 4 bytes. -/
def parseUnitStates (data : Bytes) : List UnitStateEvt :=
  parseUnitStatesFuel data.length data

/-- A syntactically well-formed unit-state record, for stating what the parser
does on a body made of complete records. -/
structure UnitRecord where
  id : Nat
  flags : Nat
  prio : Nat
  extras : Bytes
  state : Bytes
  padding : Bytes
deriving DecidableEq, Repr

/-- Serialisation of one complete unit-state record:
`id ‖ flags ‖ (state_len - 1) << 4 | prio ‖ extras ‖ state ‖ padding`. -/
def serializeRecord (r : UnitRecord) : Bytes :=
  r.id :: r.flags :: ((r.state.length - 1) * 16 + r.prio) :: (r.extras ++ r.state ++ r.padding)

/-- Record well-formedness: the priority fits the low nibble, the state length
is the 1..16 range expressible in the header's high nibble, the optional bytes
match the flag bits, and the padding matches bits 6-7 of the flags. -/
abbrev WellFormedRecord (r : UnitRecord) : Prop :=
  r.flags < 256 ∧ r.prio < 16 ∧ 1 ≤ r.state.length ∧ r.state.length ≤ 16 ∧
    r.extras.length = unitFlagsSkip r.flags ∧
    r.padding.length = (r.flags >>> 6) &&& 3

/-- The callback record produced for a complete unit-state record. -/
def recordEvent (r : UnitRecord) : UnitStateEvt :=
  { id := r.id, online := decide (r.flags &&& 2 ≠ 0), isOn := decide (r.flags &&& 1 ≠ 0),
    state := r.state }

/-- The press/release kind string attached to a switch event
(`button_press`, `button_release`, `button_hold`, `button_release_after_hold`,
`unknown`). -/
inductive SwitchKind where
  | press
  | release
  | hold
  | releaseAfterHold
  | unknown
deriving DecidableEq, Repr

/-- A switch event as handed to the data callback by `_processSwitchMessage`
(the semantic fields of the emitted dict; the debug-only fields `raw_packet`,
`packet_sequence`, `decrypted_data`, `message_position` and `payload_hex` are
not modelled). -/
structure SwitchEvt where
  messageType : Nat
  button : Nat
  unitId : Nat
  action : Option Nat
  event : SwitchKind
  flags : Nat
  extraData : Bytes
deriving DecidableEq, Repr

/-- `_processSwitchMessage` of `_client.py`: returns the emitted event, or
`none` when the payload is empty or when a type-`0x08` event with button 0 is
filtered out.  `fullData` is only consulted for type `0x10`, where the caller
passes the submessage slice starting at the submessage's first byte. -/
def processSwitchMessage (messageType flags button : Nat) (payload fullData : Bytes) :
    Option SwitchEvt :=
  if payload.length = 0 then none
  else
    let unitId := if messageType = 0x10 ∧ 3 ≤ payload.length then payload.getD 2 0
      else payload.getD 0 0
    let extraData := if messageType = 0x10 ∧ 3 ≤ payload.length then payload.drop 3
      else if 2 < payload.length then payload.drop 2 else []
    let action := if 1 < payload.length then some (payload.getD 1 0) else none
    let event :=
      if messageType = 0x08 then
        match action with
        | some a => if (a >>> 1) &&& 1 = 1 then SwitchKind.release else SwitchKind.press
        | none => SwitchKind.unknown
      else if messageType = 0x10 then
        if 9 < fullData.length then
          match fullData.getD 9 0 with
          | 0x01 => SwitchKind.press
          | 0x02 => SwitchKind.release
          | 0x09 => SwitchKind.hold
          | 0x0C => SwitchKind.releaseAfterHold
          | _ =>
            if 1 ≤ extraData.length ∧ extraData.getD 0 0 = 0x12 then SwitchKind.release
            else SwitchKind.press
        else
          if 1 ≤ extraData.length ∧ extraData.getD 0 0 = 0x12 then SwitchKind.release
          else SwitchKind.unknown
      else SwitchKind.unknown
    if messageType = 0x08 ∧ button = 0 then none
    else
      some { messageType := messageType, button := button, unitId := unitId,
             action := action, event := event, flags := flags, extraData := extraData }

/-- The submessage loop of `_parseSwitchEvent`, written on the remaining
suffix of the body.  Each iteration needs at least 3 bytes of header; a
message type above `0x80` resyncs by one byte; a declared payload length that
overruns the buffer stops parsing; types `0x08`/`0x10` go through
`_processSwitchMessage`; every other type is skipped. -/
def parseSwitchEventLoopFuel : Nat → Bytes → List SwitchEvt
  | 0, _ => []
  | fuel + 1, data =>
    if 3 ≤ data.length then
      let messageType := data.getD 0 0
      let parameter := data.getD 2 0
      let length := ((data.getD 2 0) >>> 4 &&& 15) + 1
      if 0x80 < messageType then
        parseSwitchEventLoopFuel fuel (data.drop 1)
      else if data.length < 3 + length then []
      else
        let payload := (data.drop 3).take length
        let rest := parseSwitchEventLoopFuel fuel (data.drop (3 + length))
        if messageType = 0x08 ∨ messageType = 0x10 then
          let buttonLower := parameter &&& 15
          let buttonUpper := (parameter >>> 4) &&& 15
          let button := if buttonLower = 0 ∧ buttonUpper ≠ 0 then buttonUpper else buttonLower
          let fullData := if messageType = 0x10 then data.take (min 11 data.length) else data
          match processSwitchMessage messageType (data.getD 1 0) button payload fullData with
          | some evt => evt :: rest
          | none => rest
        else rest
    else []

/-- The submessage loop proper: run with fuel `data.length`, which always
suffices since every iteration consumes at least one byte. -/
def parseSwitchEventLoop (data : Bytes) : List SwitchEvt :=
  parseSwitchEventLoopFuel data.length data

/-- `_parseSwitchEvent` of `_client.py`: a body whose first byte is `0x29` is
dropped whole; otherwise the submessage loop runs. -/
def parseSwitchEvent (data : Bytes) : List SwitchEvt :=
  match data with
  | d0 :: _ => if d0 = 0x29 then [] else parseSwitchEventLoop data
  | [] => parseSwitchEventLoop []

/-- A data callback invocation (`IncommingPacketType` with the parsed dict). -/
inductive DataCallback where
  | unitState (e : UnitStateEvt)
  | switchEvent (e : SwitchEvt)
deriving DecidableEq, Repr

/-- The mutable per-connection state of `CasambiClient` that the modelled code
paths touch.  The BLE transport is an external collaborator. -/
structure ClientState where
  connectionState : ConnectionState
  outPacketCount : Nat
  inPacketCount : Nat
  nonce : Bytes
  encryptor : Encryptor

/-- `CasambiClient.connect`, success path: requires state `NONE`, resets the
packet counters to 2 (outgoing) and 1 (incoming) and moves to `CONNECTED`.
BLE discovery and GATT connection are external and assumed to succeed. -/
def connect (s : ClientState) : Except PyError ClientState :=
  if s.connectionState ≠ ConnectionState.NONE then .error .connectionStateError
  else
    .ok { s with outPacketCount := 2, inPacketCount := 1,
                 connectionState := ConnectionState.CONNECTED }

/-- `CasambiClient._getNonce`: splice the little-endian counter into bytes
4..8 of the session nonce. -/
def getNonce (s : ClientState) (id : Nat) : Bytes :=
  s.nonce.take 4 ++ toBytesLE 4 id ++ s.nonce.drop 8

/-- `CasambiClient.send`, success path of the GATT write: requires state
`AUTHENTICATED`, prepends the 4-byte little-endian outgoing counter and the
direction byte `0x07`, encrypts with the counter nonce, and only then
increments the counter.  `int.to_bytes(4)` raises `OverflowError` for values
not below `2^32`.  Returns the transmitted frame with the new state. -/
def send (s : ClientState) (packet : Bytes) : Except PyError (Bytes × ClientState) :=
  if s.connectionState ≠ ConnectionState.AUTHENTICATED then .error .connectionStateError
  else if 2 ^ 32 ≤ s.outPacketCount then .error .overflowError
  else
    let headerPacket := toBytesLE 4 s.outPacketCount ++ [7] ++ packet
    match s.encryptor.encryptThenMac headerPacket (getNonce s s.outPacketCount) 4 with
    | .error err => .error err
    | .ok frame => .ok (frame, { s with outPacketCount := s.outPacketCount + 1 })

/-- Iterate `send` over a list of inner payloads, recording the counter value
transmitted in the clear 4-byte header of each frame; stop at the first
failure. -/
def sendTrace (s : ClientState) : List Bytes → List Nat × ClientState
  | [] => ([], s)
  | p :: ps =>
    match send s p with
    | .error _ => ([], s)
    | .ok (frame, s₁) =>
      let rest := sendTrace s₁ ps
      (fromBytesLE (frame.take 4) :: rest.1, rest.2)

/-- `CasambiClient._establishedNofityCallback`: bump the incoming counter,
decrypt and verify against the nonce spliced from the frame header; a
`InvalidSignature` drops the frame silently, every other exception
propagates; otherwise dispatch on the first decrypted byte
(6 = UnitState, 7 = SwitchEvent, 9 = NetworkConfig ignored, others ignored).
Returns the new state and the data callbacks invoked. -/
def establishedNotifyCallback (s : ClientState) (data : Bytes) :
    Except PyError (ClientState × List DataCallback) :=
  let s₁ := { s with inPacketCount := s.inPacketCount + 1 }
  match s.encryptor.decryptAndVerify data (data.take 4 ++ s.nonce.drop 4) 4 with
  | .error .invalidSignature => .ok (s₁, [])
  | .error err => .error err
  | .ok decrypted =>
    match decrypted with
    | [] => .error .indexError
    | packetType :: body =>
      if packetType = 6 then .ok (s₁, (parseUnitStates body).map DataCallback.unitState)
      else if packetType = 7 then .ok (s₁, (parseSwitchEvent body).map DataCallback.switchEvent)
      else .ok (s₁, [])

/-- `CasambiClient._authNofityCallback`: bump the incoming counter, decrypt
and verify the authentication response; an `InvalidSignature` is fatal and
moves the connection state to `ERROR` without signalling; on success the
notify signal is set (returned boolean). -/
def authNotifyCallback (s : ClientState) (data : Bytes) :
    Except PyError (ClientState × Bool) :=
  let s₁ := { s with inPacketCount := s.inPacketCount + 1 }
  match s.encryptor.decryptAndVerify data (data.take 4 ++ s.nonce.drop 4) 4 with
  | .error .invalidSignature =>
    .ok ({ s₁ with connectionState := ConnectionState.ERROR }, false)
  | .error err => .error err
  | .ok _ => .ok (s₁, true)

/-- The device info parsed from the hello response. -/
structure HelloInfo where
  mtu : Nat
  unit : Nat
  flags : Nat
  nonce : Bytes
  warned : Bool
deriving DecidableEq, Repr

/-- The hello-processing step of `CasambiClient.exchangeKey`: a response whose
byte 0 is not `0x01` or whose byte 1 differs from the advertised protocol
version only logs an error (`warned`) and parsing continues;
`struct.unpack_from(">BHH16s", resp, 2)` raises `struct.error` when fewer
than 23 bytes are available, and otherwise always yields
`mtu(u8) ‖ unit(u16_be) ‖ flags(u16_be) ‖ nonce(16 bytes)`. -/
def processHello (firstResp : Bytes) (protocolVersion : Nat) : Except PyError HelloInfo :=
  if firstResp.length < 23 then .error .structError
  else
    .ok { mtu := firstResp.getD 2 0,
          unit := firstResp.getD 3 0 * 256 + firstResp.getD 4 0,
          flags := firstResp.getD 5 0 * 256 + firstResp.getD 6 0,
          nonce := (firstResp.drop 7).take 16,
          warned := if firstResp.getD 0 0 = 1 ∧ firstResp.getD 1 0 = protocolVersion
            then false else true }

/-- A degenerate but well-typed block cipher and MAC (constant zero blocks),
used to instantiate witnesses; the Encryptor-level theorems hold for every
16-byte-output block cipher and MAC, in particular for AES and AES-CMAC. -/
def zeroEncryptor : Encryptor :=
  { blockEnc := fun _ => List.replicate 16 0, cmacF := fun _ => List.replicate 16 0 }

/-- An all-zero 16-byte session nonce for witnesses. -/
def nonce0 : Bytes := List.replicate 16 0

/-- A sample authenticated client state for witnesses. -/
def sampleAuthState : ClientState :=
  { connectionState := ConnectionState.AUTHENTICATED, outPacketCount := 2, inPacketCount := 1,
    nonce := nonce0, encryptor := zeroEncryptor }

/-- A sample client state stuck in `KEY_EXCHANGED`, for witnesses. -/
def sampleKeyExchState : ClientState :=
  { connectionState := ConnectionState.KEY_EXCHANGED, outPacketCount := 2, inPacketCount := 1,
    nonce := nonce0, encryptor := zeroEncryptor }

/-- A 21-byte inbound frame whose all-ones tag does not match the all-zero
CMAC of `zeroEncryptor`: its signature verification fails. -/
def badMacFrame : Bytes := List.replicate 21 1

theorem length_toBytesLE (len n : Nat) : (toBytesLE len n).length = len := by
  induction len generalizing n with
  | zero => rfl
  | succ l ih => simp [toBytesLE, ih]

theorem length_bytesXor (a b : Bytes) : (bytesXor a b).length = min a.length b.length := by
  simp [bytesXor]

theorem ctrBlocksFuel_nil (f : Bytes → Bytes) (nonce : Bytes) (fuel c : Nat) :
    ctrBlocksFuel f nonce fuel c [] = [] := by
  cases fuel <;> simp [ctrBlocksFuel]

theorem ctrBlocks_nil (f : Bytes → Bytes) (nonce : Bytes) (c : Nat) :
    ctrBlocks f nonce c [] = [] := rfl

theorem ctrBlocksFuel_congr (f : Bytes → Bytes) (nonce : Bytes) :
    ∀ (f₁ f₂ c : Nat) (p : Bytes), p.length ≤ f₁ → p.length ≤ f₂ →
      ctrBlocksFuel f nonce f₁ c p = ctrBlocksFuel f nonce f₂ c p := by
  intro f₁
  induction f₁ with
  | zero =>
    intro f₂ c p h1 h2
    have hnil : p = [] := List.eq_nil_of_length_eq_zero (by omega)
    subst hnil
    rw [ctrBlocksFuel_nil, ctrBlocksFuel_nil]
  | succ g ih =>
    intro f₂ c p h1 h2
    by_cases hp : p = []
    · subst hp
      rw [ctrBlocksFuel_nil, ctrBlocksFuel_nil]
    · have hL : 0 < p.length := List.length_pos.mpr hp
      obtain ⟨g₂, rfl⟩ : ∃ g₂, f₂ = g₂ + 1 := ⟨f₂ - 1, by omega⟩
      simp only [ctrBlocksFuel, if_neg hp]
      rw [ih g₂ (c + 1) (p.drop 16) (by simp [List.length_drop]; omega)
        (by simp [List.length_drop]; omega)]

theorem bytesXor_bytesXor_cancel (k b : Bytes) :
    bytesXor k (bytesXor k b) = b.take k.length := by
  induction k generalizing b with
  | nil => simp [bytesXor]
  | cons a k ih =>
    cases b with
    | nil => simp [bytesXor]
    | cons c b =>
      show (a ^^^ (a ^^^ c)) :: bytesXor k (bytesXor k b) = c :: b.take k.length
      rw [Nat.xor_cancel_left, ih b]

theorem ctrBlocks_cons (f : Bytes → Bytes) (nonce : Bytes) (c : Nat) (p : Bytes)
    (h : p ≠ []) :
    ctrBlocks f nonce c p =
      bytesXor ((f (nonce.take 12 ++ toBytesLE 4 c)).take (min 16 p.length)) (p.take 16) ++
        ctrBlocks f nonce (c + 1) (p.drop 16) := by
  have hL : 0 < p.length := List.length_pos.mpr h
  obtain ⟨k, hk⟩ : ∃ k, p.length = k + 1 := ⟨p.length - 1, by omega⟩
  show ctrBlocksFuel f nonce p.length c p = _
  rw [hk]
  simp only [ctrBlocksFuel, if_neg h]
  rw [ctrBlocksFuel_congr f nonce k (p.drop 16).length (c + 1) (p.drop 16)
    (by simp [List.length_drop]; omega) (Nat.le_refl _)]
  rw [hk]
  rfl

theorem ctrBlocks_length_aux (f : Bytes → Bytes) (hf : GoodBlockCipher f) (nonce : Bytes) :
    ∀ (fuel c : Nat) (p : Bytes), p.length ≤ fuel →
      (ctrBlocks f nonce c p).length = p.length := by
  intro fuel
  induction fuel with
  | zero =>
    intro c p hp
    have hnil : p = [] := List.eq_nil_of_length_eq_zero (Nat.le_zero.mp hp)
    subst hnil
    simp [ctrBlocks_nil]
  | succ n ih =>
    intro c p hp
    by_cases h : p = []
    · subst h; simp [ctrBlocks_nil]
    · have hL : 0 < p.length := List.length_pos.mpr h
      have h1 : (f (nonce.take 12 ++ toBytesLE 4 c)).length = 16 := hf _
      have h2 : (ctrBlocks f nonce (c + 1) (p.drop 16)).length = (p.drop 16).length :=
        ih (c + 1) (p.drop 16) (by simp [List.length_drop]; omega)
      rw [ctrBlocks_cons f nonce c p h]
      simp only [List.length_append, length_bytesXor, List.length_take, h1, h2,
        List.length_drop]
      omega

theorem ctrBlocks_length (f : Bytes → Bytes) (hf : GoodBlockCipher f) (nonce : Bytes)
    (c : Nat) (p : Bytes) : (ctrBlocks f nonce c p).length = p.length :=
  ctrBlocks_length_aux f hf nonce p.length c p (Nat.le_refl _)

theorem ctrBlocks_involutive_aux (f : Bytes → Bytes) (hf : GoodBlockCipher f) (nonce : Bytes) :
    ∀ (fuel c : Nat) (p : Bytes), p.length ≤ fuel →
      ctrBlocks f nonce c (ctrBlocks f nonce c p) = p := by
  intro fuel
  induction fuel with
  | zero =>
    intro c p hp
    have hnil : p = [] := List.eq_nil_of_length_eq_zero (Nat.le_zero.mp hp)
    subst hnil
    simp [ctrBlocks_nil]
  | succ n ih =>
    intro c p hp
    by_cases h : p = []
    · subst h; simp [ctrBlocks_nil]
    · have hL : 0 < p.length := List.length_pos.mpr h
      have hfl : (f (nonce.take 12 ++ toBytesLE 4 c)).length = 16 := hf _
      have hKlen : ((f (nonce.take 12 ++ toBytesLE 4 c)).take (min 16 p.length)).length =
          min 16 p.length := by
        rw [List.length_take, hfl]
        omega
      have hXlen :
          (bytesXor ((f (nonce.take 12 ++ toBytesLE 4 c)).take (min 16 p.length))
            (p.take 16)).length = min 16 p.length := by
        rw [length_bytesXor, hKlen, List.length_take]
        omega
      have hXle :
          (bytesXor ((f (nonce.take 12 ++ toBytesLE 4 c)).take (min 16 p.length))
            (p.take 16)).length ≤ 16 := by
        omega
      have hRnil : p.length ≤ 16 → ctrBlocks f nonce (c + 1) (p.drop 16) = [] := by
        intro hle
        rw [List.drop_eq_nil_of_le hle, ctrBlocks_nil]
      have hRlen : (ctrBlocks f nonce (c + 1) (p.drop 16)).length = p.length - 16 := by
        rw [ctrBlocks_length f hf nonce (c + 1) (p.drop 16), List.length_drop]
      rw [ctrBlocks_cons f nonce c p h]
      have hXR :
          (bytesXor ((f (nonce.take 12 ++ toBytesLE 4 c)).take (min 16 p.length)) (p.take 16) ++
            ctrBlocks f nonce (c + 1) (p.drop 16)) ≠ [] := by
        intro contra
        have hlen := congrArg List.length contra
        rw [List.length_append, hXlen, hRlen] at hlen
        simp only [List.length_nil] at hlen
        omega
      rw [ctrBlocks_cons f nonce c _ hXR]
      have hXRlen :
          (bytesXor ((f (nonce.take 12 ++ toBytesLE 4 c)).take (min 16 p.length)) (p.take 16) ++
            ctrBlocks f nonce (c + 1) (p.drop 16)).length = p.length := by
        rw [List.length_append, hXlen, hRlen]
        omega
      rw [hXRlen]
      have htake :
          (bytesXor ((f (nonce.take 12 ++ toBytesLE 4 c)).take (min 16 p.length)) (p.take 16) ++
            ctrBlocks f nonce (c + 1) (p.drop 16)).take 16 =
          bytesXor ((f (nonce.take 12 ++ toBytesLE 4 c)).take (min 16 p.length)) (p.take 16) := by
        rw [List.take_append_eq_append_take]
        rw [List.take_of_length_le hXle]
        rcases le_or_lt p.length 16 with hle | hgt
        · rw [hRnil hle]; simp
        · rw [hXlen]
          have h0 : 16 - min 16 p.length = 0 := by omega
          rw [h0]
          simp
      have hdrop :
          (bytesXor ((f (nonce.take 12 ++ toBytesLE 4 c)).take (min 16 p.length)) (p.take 16) ++
            ctrBlocks f nonce (c + 1) (p.drop 16)).drop 16 =
          ctrBlocks f nonce (c + 1) (p.drop 16) := by
        rw [List.drop_append_eq_append_drop]
        rw [List.drop_eq_nil_of_le hXle]
        rcases le_or_lt p.length 16 with hle | hgt
        · rw [hRnil hle]; simp
        · rw [hXlen]
          have h0 : 16 - min 16 p.length = 0 := by omega
          rw [h0]
          simp
      rw [htake, hdrop]
      have hcancel :
          bytesXor ((f (nonce.take 12 ++ toBytesLE 4 c)).take (min 16 p.length))
            (bytesXor ((f (nonce.take 12 ++ toBytesLE 4 c)).take (min 16 p.length))
              (p.take 16)) = p.take 16 := by
        rw [bytesXor_bytesXor_cancel, hKlen]
        exact List.take_of_length_le (by simp [List.length_take])
      rw [hcancel]
      rw [ih (c + 1) (p.drop 16) (by simp [List.length_drop]; omega)]
      exact List.take_append_drop 16 p

theorem ctrBlocks_involutive (f : Bytes → Bytes) (hf : GoodBlockCipher f) (nonce : Bytes)
    (c : Nat) (p : Bytes) : ctrBlocks f nonce c (ctrBlocks f nonce c p) = p :=
  ctrBlocks_involutive_aux f hf nonce p.length c p (Nat.le_refl _)

theorem fromBytesLE_toBytesLE :
    ∀ (len n : Nat), n < 256 ^ len → fromBytesLE (toBytesLE len n) = n := by
  intro len
  induction len with
  | zero =>
    intro n h
    simp only [toBytesLE, fromBytesLE, List.foldr_nil]
    simp only [pow_zero] at h
    omega
  | succ l ih =>
    intro n h
    have hlt : n / 256 < 256 ^ l := by
      rw [Nat.div_lt_iff_lt_mul (by norm_num)]
      calc n < 256 ^ (l + 1) := h
        _ = 256 ^ l * 256 := by ring
    simp only [toBytesLE, fromBytesLE, List.foldr_cons]
    have hrec := ih (n / 256) hlt
    simp only [fromBytesLE] at hrec
    rw [hrec]
    omega

theorem length_toBytesBE (len n : Nat) : (toBytesBE len n).length = len := by
  simp [toBytesBE, length_toBytesLE]

theorem toBytesBE_two (n : Nat) : toBytesBE 2 n = [n / 256 % 256, n % 256] := rfl

/-- Low-nibble masking is the identity below 16. -/
theorem nibble_and_fifteen : ∀ x < 16, x &&& 15 = x := by decide

/-- Arithmetic facts about the `flags_and_len` field built by
`prepareOperation`: it fits 16 bits, its top 5 bits are the lifetime and its
low 11 bits are the payload length. -/
theorem flags_and_len_facts :
    ∀ l < 16, ∀ m < 64,
      ((l &&& 15) <<< 11 ||| m) < 65536 ∧ (((l &&& 15) <<< 11 ||| m) >>> 11 = l) ∧
        (((l &&& 15) <<< 11 ||| m) &&& 2047 = m) := by decide

/-- On a 16-byte nonce `encryptThenMac` succeeds and produces
`header ‖ ciphertext ‖ tag`. -/
theorem encryptThenMac_ok (e : Encryptor) (p nonce : Bytes) (hn : nonce.length = 16) :
    e.encryptThenMac p nonce 4 =
      .ok ((p.take 4 ++ ctrBlocks e.blockEnc nonce 0 (p.drop 4)) ++
        e.cmacF (p.take 4 ++ ctrBlocks e.blockEnc nonce 0 (p.drop 4))) := by
  simp [Encryptor.encryptThenMac, Encryptor.encryptInternal, hn]

/-- Dropping the concatenated lengths of three leading chunks. -/
theorem drop_three_chunks (a b c tail : Bytes) :
    (a ++ (b ++ (c ++ tail))).drop (a.length + b.length + c.length) = tail := by
  rw [List.drop_append_eq_append_drop, List.drop_eq_nil_of_le (by omega), List.nil_append]
  have h1 : a.length + b.length + c.length - a.length = b.length + c.length := by omega
  rw [h1, List.drop_append_eq_append_drop, List.drop_eq_nil_of_le (by omega), List.nil_append]
  have h2 : b.length + c.length - b.length = c.length := by omega
  rw [h2, List.drop_append_eq_append_drop, List.drop_eq_nil_of_le (by omega), List.nil_append]
  rw [Nat.sub_self, List.drop_zero]

/-- **C1** (corrected).  Encryptor round-trip: for every packet `p` whose
first 4 bytes are the clear header and every 16-byte nonce `n`,
`decryptAndVerify (encryptThenMac p n) n` succeeds and returns the packet
*without its 4-byte header* (`p.drop 4`) — not `p` unchanged, as
`decryptAndVerify` returns only the decrypted body.  Proven for every block
cipher and MAC with 16-byte outputs, hence in particular for AES-128 and
AES-CMAC. -/
theorem roundtrip_returns_body (e : Encryptor) (hB : GoodBlockCipher e.blockEnc)
    (hM : GoodMac e.cmacF) (p nonce : Bytes) (hn : nonce.length = 16) :
    ∃ frame, e.encryptThenMac p nonce 4 = .ok frame ∧
      e.decryptAndVerify frame nonce 4 = .ok (p.drop 4) := by
  refine ⟨_, encryptThenMac_ok e p nonce hn, ?_⟩
  set msg := p.take 4 ++ ctrBlocks e.blockEnc nonce 0 (p.drop 4) with hmsg
  have hlen : (msg ++ e.cmacF msg).length - 16 = msg.length := by
    rw [List.length_append, hM msg]
    omega
  have hdropmsg : msg.drop 4 = ctrBlocks e.blockEnc nonce 0 (p.drop 4) := by
    rw [hmsg]
    rcases le_or_lt 4 p.length with hge | hlt
    · exact List.drop_left' (by rw [List.length_take]; omega)
    · rw [List.drop_eq_nil_of_le (by omega : p.length ≤ 4), ctrBlocks_nil, List.append_nil,
        List.take_of_length_le (by omega)]
      exact List.drop_eq_nil_of_le (by omega)
  simp only [Encryptor.decryptAndVerify]
  rw [hlen, List.take_left, List.drop_left, hdropmsg]
  simp [Encryptor.encryptInternal, hn, ctrBlocks_involutive e.blockEnc hB nonce 0 (p.drop 4)]

/-- Witness for C1 at a concrete packet and nonce. -/
theorem roundtrip_returns_body_witness :
    ∃ frame, zeroEncryptor.encryptThenMac [1, 2, 3, 4, 5] nonce0 4 = .ok frame ∧
      zeroEncryptor.decryptAndVerify frame nonce0 4 = .ok (([1, 2, 3, 4, 5] : Bytes).drop 4) :=
  roundtrip_returns_body zeroEncryptor (fun x => by simp [zeroEncryptor])
    (fun x => by simp [zeroEncryptor]) [1, 2, 3, 4, 5] nonce0 (by simp [nonce0])

/-- **C1 counterexample**: on the concrete 5-byte packet `[1,2,3,4,5]` (header
`[1,2,3,4]`, body `[5]`) the round trip returns `[5]`, which differs from the
original packet — refuting `decryptAndVerify (encryptThenMac p n) n = p`. -/
theorem roundtrip_counterexample :
    (zeroEncryptor.encryptThenMac [1, 2, 3, 4, 5] nonce0 4).bind
      (fun frame => zeroEncryptor.decryptAndVerify frame nonce0 4) = .ok [5] ∧
    (Except.ok [5] : Except PyError Bytes) ≠ .ok [1, 2, 3, 4, 5] := by
  exact ⟨by decide, by decide⟩

/-- **C10** (confirmed).  The manual AES-CTR transform `_encryptInternal` is
self-inverse: with a 16-byte nonce, applying it twice with the same key and
nonce returns the input, for any 16-byte-block cipher (in particular AES).
Moreover `decryptAndVerify` obtains its plaintext by applying exactly this
function to the ciphertext body, and `encryptThenMac` encrypts with the same
function. -/
theorem encryptInternal_involutive (e : Encryptor) (hB : GoodBlockCipher e.blockEnc)
    (b nonce : Bytes) (hn : nonce.length = 16) :
    (e.encryptInternal b nonce).bind (fun c => e.encryptInternal c nonce) = .ok b ∧
    (∀ frame pt, e.decryptAndVerify frame nonce 4 = .ok pt →
      e.encryptInternal ((frame.take (frame.length - 16)).drop 4) nonce = .ok pt) ∧
    (∀ packet : Bytes, e.encryptThenMac packet nonce 4 =
      (e.encryptInternal (packet.drop 4) nonce).map
        (fun ct => (packet.take 4 ++ ct) ++ e.cmacF (packet.take 4 ++ ct))) := by
  refine ⟨?_, ?_, ?_⟩
  · simp [Encryptor.encryptInternal, hn, Except.bind,
      ctrBlocks_involutive e.blockEnc hB nonce 0 b]
  · intro frame pt h
    simp only [Encryptor.decryptAndVerify, Encryptor.encryptInternal, hn] at h
    simp only [ne_eq, not_true_eq_false, if_false] at h
    split at h
    · simp only [Except.ok.injEq] at h
      subst h
      simp [Encryptor.encryptInternal, hn]
    · exact absurd h (by simp)
  · intro packet
    simp [Encryptor.encryptThenMac, Encryptor.encryptInternal, hn, Except.map]

/-- Witness for C10 at concrete inputs: the involution on body `[9]`, the
decrypt path on an all-zero 21-byte frame, and the encrypt path on packet
`[1,2,3]`. -/
theorem encryptInternal_involutive_witness :
    (zeroEncryptor.encryptInternal [9] nonce0).bind
      (fun c => zeroEncryptor.encryptInternal c nonce0) = .ok [9] ∧
    zeroEncryptor.encryptInternal
      (((List.replicate 21 0 : Bytes).take ((List.replicate 21 0 : Bytes).length - 16)).drop 4)
      nonce0 = .ok [0] ∧
    zeroEncryptor.encryptThenMac [1, 2, 3] nonce0 4 =
      (zeroEncryptor.encryptInternal (([1, 2, 3] : Bytes).drop 4) nonce0).map
        (fun ct => (([1, 2, 3] : Bytes).take 4 ++ ct) ++
          zeroEncryptor.cmacF (([1, 2, 3] : Bytes).take 4 ++ ct)) := by
  have h := encryptInternal_involutive zeroEncryptor (fun x => by simp [zeroEncryptor])
    [9] nonce0 (by simp [nonce0])
  exact ⟨h.1, h.2.1 (List.replicate 21 0) [0] (by decide), h.2.2 [1, 2, 3]⟩

/-- Reading back a big-endian 16-bit field from the head of a byte string. -/
theorem be2_head (n : Nat) (rest : Bytes) (h : n < 65536) :
    (toBytesBE 2 n ++ rest).getD 0 0 * 256 + (toBytesBE 2 n ++ rest).getD 1 0 = n := by
  rw [toBytesBE_two]
  simp only [List.cons_append, List.getD_cons_zero, List.getD_cons_succ]
  omega

/-- **C2** (corrected).  Operation builder output shape: for every opcode,
16-bit target and payload of at most 63 bytes, `prepareOperation` succeeds
and returns `flags_and_len(2 BE) ‖ opcode(1) ‖ origin(2 BE) ‖ target(2 BE) ‖
reserved(2 = 0) ‖ payload`, where the big-endian 16-bit `flags_and_len`
satisfies `flags_and_len >>> 11 = lifetime` and
`flags_and_len &&& 0x7FF = payload length`.  The total length is
`9 + len(payload)` — not `11 + len(payload)` as claimed: the fixed header
is 9 bytes (2+1+2+2+2). -/
theorem prepareOperation_format (ctx : OperationsContext) (op : OpCode) (target : Nat)
    (payload : Bytes) (hl : ctx.lifetime < 16) (ht : target < 2 ^ 16)
    (hp : payload.length ≤ 63) :
    ∃ pkt, (prepareOperation ctx op target payload).1 = .ok pkt ∧
      pkt.length = 9 + payload.length ∧
      (pkt.getD 0 0 * 256 + pkt.getD 1 0) >>> 11 = ctx.lifetime ∧
      (pkt.getD 0 0 * 256 + pkt.getD 1 0) &&& 0x7FF = payload.length ∧
      pkt.drop 2 = op.toNat :: (toBytesBE 2 (ctx.origin &&& (2 ^ 16 - 1)) ++
        toBytesBE 2 target ++ ([0, 0] ++ payload)) := by
  obtain ⟨hbound, hshift, hmask⟩ :=
    flags_and_len_facts ctx.lifetime hl payload.length (by omega)
  refine ⟨toBytesBE 2 ((ctx.lifetime &&& 15) <<< 11 ||| payload.length) ++ [op.toNat] ++
      toBytesBE 2 (ctx.origin &&& (2 ^ 16 - 1)) ++ toBytesBE 2 target ++ toBytesBE 2 0 ++
      payload, ?_, ?_, ?_, ?_, ?_⟩
  · simp only [prepareOperation]
    rw [if_neg (by omega), if_neg (by omega)]
  · simp only [List.length_append, length_toBytesBE, List.length_cons, List.length_nil]
  · simp only [List.append_assoc]
    rw [be2_head _ _ hbound]
    exact hshift
  · simp only [List.append_assoc]
    rw [be2_head _ _ hbound]
    exact hmask
  · have h00 : toBytesBE 2 0 = ([0, 0] : Bytes) := rfl
    simp only [List.append_assoc, h00]
    rw [toBytesBE_two]
    simp

/-- Witness for C2: `SetLevel` to unit 1 (target `0x0101`) with payload
`FF 05` from the initial context. -/
theorem prepareOperation_format_witness :
    ∃ pkt, (prepareOperation { origin := 1, lifetime := 5 } OpCode.SetLevel 257 [255, 5]).1 =
        .ok pkt ∧
      pkt.length = 9 + ([255, 5] : Bytes).length ∧
      (pkt.getD 0 0 * 256 + pkt.getD 1 0) >>> 11 =
        ({ origin := 1, lifetime := 5 } : OperationsContext).lifetime ∧
      (pkt.getD 0 0 * 256 + pkt.getD 1 0) &&& 0x7FF = ([255, 5] : Bytes).length ∧
      pkt.drop 2 = OpCode.SetLevel.toNat ::
        (toBytesBE 2 (({ origin := 1, lifetime := 5 } : OperationsContext).origin &&&
          (2 ^ 16 - 1)) ++ toBytesBE 2 257 ++ ([0, 0] ++ [255, 5])) :=
  prepareOperation_format { origin := 1, lifetime := 5 } OpCode.SetLevel 257 [255, 5]
    (by decide) (by decide) (by decide)

/-- **C2 counterexample**: with the empty payload the built packet has length
9, not `11 + 0 = 11` — the fixed header is 9 bytes. -/
theorem prepareOperation_length_counterexample :
    ((prepareOperation { origin := 1, lifetime := 5 } OpCode.SetLevel 0 []).1).map
      List.length = .ok 9 ∧ (9 : Nat) ≠ 11 + ([] : Bytes).length := by
  exact ⟨by decide, by decide⟩

/-- **C7** (confirmed).  Payload limit with atomicity: a payload longer than
63 bytes raises `ValueError` with no packet produced and the origin counter
unchanged; a payload of at most 63 bytes (with a 16-bit target) succeeds and
increments the origin counter by exactly 1. -/
theorem prepareOperation_atomic :
    (∀ (ctx : OperationsContext) (op : OpCode) (target : Nat) (payload : Bytes),
        63 < payload.length →
        prepareOperation ctx op target payload = (.error .valueError, ctx)) ∧
    (∀ (ctx : OperationsContext) (op : OpCode) (target : Nat) (payload : Bytes),
        payload.length ≤ 63 → target < 2 ^ 16 →
        ∃ pkt, prepareOperation ctx op target payload =
          (.ok pkt, { ctx with origin := ctx.origin + 1 })) := by
  constructor
  · intro ctx op target payload hp
    simp only [prepareOperation]
    rw [if_pos hp]
  · intro ctx op target payload hp ht
    refine ⟨toBytesBE 2 ((ctx.lifetime &&& 15) <<< 11 ||| payload.length) ++ [op.toNat] ++
      toBytesBE 2 (ctx.origin &&& (2 ^ 16 - 1)) ++ toBytesBE 2 target ++ toBytesBE 2 0 ++
      payload, ?_⟩
    simp only [prepareOperation]
    rw [if_neg (by omega), if_neg (by omega)]

/-- Witness for C7: a 64-byte payload fails leaving the context unchanged; an
empty payload succeeds and bumps the origin from 1 to 2. -/
theorem prepareOperation_atomic_witness :
    prepareOperation { origin := 1, lifetime := 5 } OpCode.SetLevel 0 (List.replicate 64 0) =
      (.error .valueError, { origin := 1, lifetime := 5 }) ∧
    ∃ pkt, prepareOperation { origin := 1, lifetime := 5 } OpCode.SetLevel 0 [] =
      (.ok pkt, { origin := 2, lifetime := 5 }) := by
  constructor
  · exact prepareOperation_atomic.1 _ _ _ _ (by simp)
  · exact prepareOperation_atomic.2 _ _ _ _ (by simp) (by norm_num)

/-- The invariant of the `getKey` scan starting from candidate `cur`: the
result is the first key of `cur :: ks` attaining the maximal role — every key
before it has a strictly smaller role, and no key has a larger one. -/
theorem getKeyAux_spec :
    ∀ (ks : List Key) (cur : Key),
      ∃ r pre post,
        ks.foldl getKeyStep (some cur) = some r ∧
        cur :: ks = pre ++ r :: post ∧
        (∀ x ∈ pre, x.role < r.role) ∧
        (∀ x ∈ cur :: ks, x.role ≤ r.role) := by
  intro ks
  induction ks with
  | nil =>
    intro cur
    exact ⟨cur, [], [], rfl, rfl, by simp, by simp⟩
  | cons k ks ih =>
    intro cur
    rw [List.foldl_cons]
    by_cases hck : cur.role < k.role
    · have hstep : getKeyStep (some cur) k = some k := by simp [getKeyStep, hck]
      rw [hstep]
      obtain ⟨r, pre, post, h1, h2, h3, h4⟩ := ih k
      refine ⟨r, cur :: pre, post, h1, ?_, ?_, ?_⟩
      · rw [List.cons_append, ← h2]
      · intro x hx
        rcases List.mem_cons.mp hx with rfl | hx
        · have hk_le : k.role ≤ r.role := h4 k (by simp)
          omega
        · exact h3 x hx
      · intro x hx
        rcases List.mem_cons.mp hx with rfl | hx
        · have hk_le : k.role ≤ r.role := h4 k (by simp)
          omega
        · exact h4 x hx
    · have hstep : getKeyStep (some cur) k = some cur := by simp [getKeyStep, hck]
      rw [hstep]
      obtain ⟨r, pre, post, h1, h2, h3, h4⟩ := ih cur
      cases pre with
      | nil =>
        simp only [List.nil_append] at h2
        injection h2 with h2a h2b
        subst h2a
        subst h2b
        refine ⟨cur, [], k :: ks, h1, rfl, by simp, ?_⟩
        intro x hx
        rcases List.mem_cons.mp hx with rfl | hx
        · exact Nat.le_refl _
        · rcases List.mem_cons.mp hx with rfl | hx
          · omega
          · exact h4 x (by simp [hx])
      | cons p₀ pre₂ =>
        simp only [List.cons_append] at h2
        injection h2 with h2a h2b
        subst h2a
        have hcur_lt : cur.role < r.role := h3 cur (by simp)
        refine ⟨r, cur :: k :: pre₂, post, h1, ?_, ?_, ?_⟩
        · rw [h2b]
          simp [List.cons_append]
        · intro x hx
          rcases List.mem_cons.mp hx with rfl | hx
          · exact hcur_lt
          · rcases List.mem_cons.mp hx with rfl | hx
            · omega
            · exact h3 x (by simp [hx])
        · intro x hx
          rcases List.mem_cons.mp hx with rfl | hx
          · omega
          · rcases List.mem_cons.mp hx with rfl | hx
            · omega
            · exact h4 x (by simp [hx])

/-- **C8** (confirmed).  Keystore key selection: `getKey` on an empty
keystore returns `none`; on a non-empty keystore it returns a key of maximal
role, and among keys sharing the maximal role the earliest-inserted one —
every key stored before the returned key has a strictly smaller role. -/
theorem getKey_selects_max :
    getKey ([] : List Key) = none ∧
    ∀ keys : List Key, keys ≠ [] →
      ∃ k pre post, getKey keys = some k ∧ keys = pre ++ k :: post ∧
        (∀ x ∈ pre, x.role < k.role) ∧ ∀ x ∈ keys, x.role ≤ k.role := by
  constructor
  · rfl
  · intro keys hne
    cases keys with
    | nil => exact absurd rfl hne
    | cons k0 ks =>
      obtain ⟨r, pre, post, h1, h2, h3, h4⟩ := getKeyAux_spec ks k0
      exact ⟨r, pre, post, h1, h2, h3, h4⟩

/-- Witness for C8 on a three-key store with a tied maximal role 3: the
earliest key with role 3 (id 2) is selected. -/
theorem getKey_selects_max_witness :
    ∃ k pre post,
      getKey [⟨1, 0, 1, "a", []⟩, ⟨2, 0, 3, "b", []⟩, ⟨3, 0, 3, "c", []⟩] = some k ∧
      ([⟨1, 0, 1, "a", []⟩, ⟨2, 0, 3, "b", []⟩, ⟨3, 0, 3, "c", []⟩] : List Key) =
        pre ++ k :: post ∧
      (∀ x ∈ pre, x.role < k.role) ∧
      ∀ x ∈ ([⟨1, 0, 1, "a", []⟩, ⟨2, 0, 3, "b", []⟩, ⟨3, 0, 3, "c", []⟩] : List Key),
        x.role ≤ k.role :=
  getKey_selects_max.2 _ (by simp)

theorem parseUnitStatesFuel_short (fuel : Nat) (data : Bytes) (h : data.length < 4) :
    parseUnitStatesFuel fuel data = [] := by
  cases fuel with
  | zero => rfl
  | succ g =>
    simp only [parseUnitStatesFuel]
    rw [if_neg (by omega)]

theorem parseUnitStates_short (data : Bytes) (h : data.length < 4) :
    parseUnitStates data = [] :=
  parseUnitStatesFuel_short data.length data h

theorem parseUnitStatesFuel_congr :
    ∀ (f₁ f₂ : Nat) (data : Bytes), data.length ≤ f₁ → data.length ≤ f₂ →
      parseUnitStatesFuel f₁ data = parseUnitStatesFuel f₂ data := by
  intro f₁
  induction f₁ with
  | zero =>
    intro f₂ data h1 h2
    rw [parseUnitStatesFuel_short 0 data (by omega),
      parseUnitStatesFuel_short f₂ data (by omega)]
  | succ g ih =>
    intro f₂ data h1 h2
    by_cases h4 : 4 ≤ data.length
    · obtain ⟨g₂, rfl⟩ : ∃ g₂, f₂ = g₂ + 1 := ⟨f₂ - 1, by omega⟩
      simp only [parseUnitStatesFuel, if_pos h4]
      congr 1
      exact ih g₂ _ (by simp [List.length_drop]; omega) (by simp [List.length_drop]; omega)
    · rw [parseUnitStatesFuel_short _ data (by omega),
        parseUnitStatesFuel_short _ data (by omega)]

/-- One step of the unit-state loop when at least 4 bytes remain. -/
theorem parseUnitStates_step (data : Bytes) (h : 4 ≤ data.length) :
    parseUnitStates data =
      { id := data.getD 0 0, online := decide (data.getD 1 0 &&& 2 ≠ 0),
        isOn := decide (data.getD 1 0 &&& 1 ≠ 0),
        state := (data.drop (3 + unitFlagsSkip (data.getD 1 0))).take
          ((data.getD 2 0 >>> 4 &&& 15) + 1) } ::
      parseUnitStates (data.drop (3 + unitFlagsSkip (data.getD 1 0) +
        ((data.getD 2 0 >>> 4 &&& 15) + 1) + ((data.getD 1 0 >>> 6) &&& 3))) := by
  obtain ⟨k, hk⟩ : ∃ k, data.length = k + 1 := ⟨data.length - 1, by omega⟩
  show parseUnitStatesFuel data.length data = _
  rw [hk]
  simp only [parseUnitStatesFuel]
  rw [if_pos h]
  rw [parseUnitStatesFuel_congr k
    (data.drop (3 + unitFlagsSkip (data.getD 1 0) + ((data.getD 2 0 >>> 4 &&& 15) + 1) +
      ((data.getD 1 0 >>> 6) &&& 3))).length _
    (by simp only [List.length_drop]; omega) (Nat.le_refl _)]
  rfl

theorem cons3_drop (a b c : Nat) (X : Bytes) (n : Nat) :
    (a :: b :: c :: X).drop (3 + n) = X.drop n := by
  have h3 : 3 + n = (n + 1 + 1) + 1 := by omega
  rw [h3, List.drop_succ_cons, List.drop_succ_cons, List.drop_succ_cons]

/-- Parsing a body that starts with one complete well-formed record emits the
record's callback and continues right after it. -/
theorem parseUnitStates_record (r : UnitRecord) (rest : Bytes) (h : WellFormedRecord r) :
    parseUnitStates (serializeRecord r ++ rest) = recordEvent r :: parseUnitStates rest := by
  obtain ⟨hfl, hprio, hsl1, hsl16, hex, hpad⟩ := h
  have hshape : serializeRecord r ++ rest =
      r.id :: r.flags :: ((r.state.length - 1) * 16 + r.prio) ::
        (r.extras ++ (r.state ++ (r.padding ++ rest))) := by
    simp [serializeRecord, List.append_assoc]
  have hlen : 4 ≤ (serializeRecord r ++ rest).length := by
    rw [hshape]
    simp only [List.length_cons, List.length_append]
    omega
  rw [parseUnitStates_step _ hlen]
  rw [hshape]
  have hd0 : (r.id :: r.flags :: ((r.state.length - 1) * 16 + r.prio) ::
      (r.extras ++ (r.state ++ (r.padding ++ rest)))).getD 0 0 = r.id := rfl
  have hd1 : (r.id :: r.flags :: ((r.state.length - 1) * 16 + r.prio) ::
      (r.extras ++ (r.state ++ (r.padding ++ rest)))).getD 1 0 = r.flags := rfl
  have hd2 : (r.id :: r.flags :: ((r.state.length - 1) * 16 + r.prio) ::
      (r.extras ++ (r.state ++ (r.padding ++ rest)))).getD 2 0 =
      (r.state.length - 1) * 16 + r.prio := rfl
  rw [hd0, hd1, hd2]
  have h16 : (2 : Nat) ^ 4 = 16 := rfl
  have hsl : (((r.state.length - 1) * 16 + r.prio) >>> 4 &&& 15) + 1 = r.state.length := by
    rw [Nat.shiftRight_eq_div_pow, h16]
    have hdiv : ((r.state.length - 1) * 16 + r.prio) / 16 = r.state.length - 1 := by omega
    rw [hdiv, nibble_and_fifteen _ (by omega)]
    omega
  rw [hsl]
  have hstate : ((r.id :: r.flags :: ((r.state.length - 1) * 16 + r.prio) ::
      (r.extras ++ (r.state ++ (r.padding ++ rest)))).drop
        (3 + unitFlagsSkip r.flags)).take r.state.length = r.state := by
    rw [cons3_drop, ← hex, List.drop_left]
    exact List.take_left' rfl
  have htail : (r.id :: r.flags :: ((r.state.length - 1) * 16 + r.prio) ::
      (r.extras ++ (r.state ++ (r.padding ++ rest)))).drop
        (3 + unitFlagsSkip r.flags + r.state.length + ((r.flags >>> 6) &&& 3)) = rest := by
    have harith : 3 + unitFlagsSkip r.flags + r.state.length + ((r.flags >>> 6) &&& 3) =
        3 + (r.extras.length + r.state.length + r.padding.length) := by omega
    rw [harith, cons3_drop]
    exact drop_three_chunks r.extras r.state r.padding rest
  rw [hstate, htail]
  rfl

/-- **C5** (corrected).  Unit-state truncation handling: the parser is total
(no error propagates) and, for a body of complete well-formed records
followed by a trailing fragment of fewer than 4 bytes, delivers exactly one
callback per complete record, in order, and nothing for the fragment.
However — contrary to the claim — an incomplete record is *not* always
silently abandoned: when at least 4 bytes of it are present, the parser also
emits a callback for it, with the declared state bytes truncated at the end
of the buffer (see the counterexample). -/
theorem parseUnitStates_truncation (rs : List UnitRecord) (tail : Bytes)
    (hwf : ∀ r ∈ rs, WellFormedRecord r) (htail : tail.length < 4) :
    parseUnitStates (rs.foldr (fun r acc => serializeRecord r ++ acc) tail) =
      rs.map recordEvent := by
  induction rs with
  | nil =>
    simp only [List.foldr_nil, List.map_nil]
    exact parseUnitStates_short tail htail
  | cons r rs ih =>
    simp only [List.foldr_cons, List.map_cons]
    rw [parseUnitStates_record r _ (hwf r (by simp))]
    rw [ih (fun x hx => hwf x (by simp [hx]))]

/-- Witness for C5: one complete record (unit 1, on and online, one state
byte `0x7F`, no optional bytes, no padding) followed by the 2-byte fragment
`[5, 5]` yields exactly the record's callback. -/
theorem parseUnitStates_truncation_witness :
    parseUnitStates
        (([⟨1, 3, 0, [], [127], []⟩] : List UnitRecord).foldr
          (fun r acc => serializeRecord r ++ acc) [5, 5]) =
      ([⟨1, 3, 0, [], [127], []⟩] : List UnitRecord).map recordEvent :=
  parseUnitStates_truncation [⟨1, 3, 0, [], [127], []⟩] [5, 5]
    (by intro r hr; simp at hr; subst hr; exact ⟨by decide, by decide, by decide, by decide,
      by decide, by decide⟩)
    (by decide)

/-- **C5 counterexample**: the 4-byte body `01 00 F0 AA` is a single record
truncated mid-way (its header declares 16 state bytes, only one follows), yet
the parser does *not* deliver nothing for it: it emits one callback with the
truncated state `[0xAA]`, refuting the claim that an incomplete record yields
no callback. -/
theorem parseUnitStates_truncation_counterexample :
    parseUnitStates [0x01, 0x00, 0xF0, 0xAA] =
      [{ id := 1, online := false, isOn := false, state := [0xAA] }] ∧
    parseUnitStates [0x01, 0x00, 0xF0, 0xAA] ≠ [] := by
  exact ⟨by decide, by decide⟩

/-- **C6** (confirmed).  Extended switch event decoding: the body
`10 02 41 14 62 14 12 00 0C 01 01` emits exactly one event with message type
`0x10`, button 1, unit id 20 and kind PRESS; `10 02 41 14 63 14 12 00 0B 02
01` emits exactly one RELEASE event; and changing the state byte at offset 9
of the submessage to `0x09` or `0x0C` selects HOLD and RELEASE_AFTER_HOLD
respectively (`0x01 = PRESS, 0x02 = RELEASE, 0x09 = HOLD,
0x0C = RELEASE_AFTER_HOLD`). -/
theorem switchEvent_extended_decode :
    parseSwitchEvent [0x10, 0x02, 0x41, 0x14, 0x62, 0x14, 0x12, 0x00, 0x0C, 0x01, 0x01] =
      [{ messageType := 0x10, button := 1, unitId := 20, action := some 0x62,
         event := SwitchKind.press, flags := 2, extraData := [0x12, 0x00] }] ∧
    parseSwitchEvent [0x10, 0x02, 0x41, 0x14, 0x63, 0x14, 0x12, 0x00, 0x0B, 0x02, 0x01] =
      [{ messageType := 0x10, button := 1, unitId := 20, action := some 0x63,
         event := SwitchKind.release, flags := 2, extraData := [0x12, 0x00] }] ∧
    parseSwitchEvent [0x10, 0x02, 0x41, 0x14, 0x62, 0x14, 0x12, 0x00, 0x0C, 0x09, 0x01] =
      [{ messageType := 0x10, button := 1, unitId := 20, action := some 0x62,
         event := SwitchKind.hold, flags := 2, extraData := [0x12, 0x00] }] ∧
    parseSwitchEvent [0x10, 0x02, 0x41, 0x14, 0x62, 0x14, 0x12, 0x00, 0x0C, 0x0C, 0x01] =
      [{ messageType := 0x10, button := 1, unitId := 20, action := some 0x62,
         event := SwitchKind.releaseAfterHold, flags := 2, extraData := [0x12, 0x00] }] := by
  exact ⟨by decide, by decide, by decide, by decide⟩

/-- **C3** (confirmed).  MAC-failure routing: in state `AUTHENTICATED` an
inbound frame failing CMAC verification is dropped silently — no data
callback is invoked and the connection state stays `AUTHENTICATED` (only the
incoming frame counter, which the source bumps for every received frame, is
incremented) — whereas in state `KEY_EXCHANGED` a CMAC failure on the
authentication response moves the connection state to `ERROR`.  The
`_callbackMulitplexer` routes frames to `_establishedNofityCallback` exactly
in state `AUTHENTICATED` and to `_authNofityCallback` exactly in state
`KEY_EXCHANGED`. -/
theorem macFailure_routing (s : ClientState) (data : Bytes)
    (hfail : s.encryptor.decryptAndVerify data (data.take 4 ++ s.nonce.drop 4) 4 =
      .error .invalidSignature) :
    (s.connectionState = ConnectionState.AUTHENTICATED →
      establishedNotifyCallback s data =
        .ok ({ s with inPacketCount := s.inPacketCount + 1 }, []) ∧
      ({ s with inPacketCount := s.inPacketCount + 1 } : ClientState).connectionState =
        ConnectionState.AUTHENTICATED) ∧
    (s.connectionState = ConnectionState.KEY_EXCHANGED →
      authNotifyCallback s data =
        .ok ({ s with inPacketCount := s.inPacketCount + 1,
                      connectionState := ConnectionState.ERROR }, false)) := by
  constructor
  · intro hstate
    constructor
    · simp only [establishedNotifyCallback, hfail]
    · simpa using hstate
  · intro _
    simp only [authNotifyCallback, hfail]

/-- Witness for C3: the frame `badMacFrame` fails verification under
`zeroEncryptor`; delivered in the authenticated state it is dropped silently,
delivered in the key-exchanged state it is fatal. -/
theorem macFailure_routing_witness :
    (establishedNotifyCallback sampleAuthState badMacFrame =
        .ok ({ sampleAuthState with
                 inPacketCount := sampleAuthState.inPacketCount + 1 }, []) ∧
      ({ sampleAuthState with inPacketCount := sampleAuthState.inPacketCount + 1 } :
        ClientState).connectionState = ConnectionState.AUTHENTICATED) ∧
    authNotifyCallback sampleKeyExchState badMacFrame =
      .ok ({ sampleKeyExchState with
               inPacketCount := sampleKeyExchState.inPacketCount + 1,
               connectionState := ConnectionState.ERROR }, false) := by
  refine ⟨(macFailure_routing sampleAuthState badMacFrame (by decide)).1 rfl,
    (macFailure_routing sampleKeyExchState badMacFrame (by decide)).2 rfl⟩

/-- **C9** (corrected).  Hello validation: when the 23-byte hello read during
key exchange does not have byte 0 equal to `0x01` and byte 1 equal to the
advertised protocol version, the handshake does *not* fail — the source only
logs an error ("Trying to continue.") and proceeds to parse
`mtu ‖ unit ‖ flags ‖ nonce_base` from bytes 2.. exactly as on a well-formed
hello. -/
theorem helloCheck_logs_and_continues (resp : Bytes) (pv : Nat) (hlen : 23 ≤ resp.length)
    (hbad : ¬(resp.getD 0 0 = 1 ∧ resp.getD 1 0 = pv)) :
    ∃ info, processHello resp pv = .ok info ∧ info.warned = true ∧
      info.mtu = resp.getD 2 0 ∧ info.unit = resp.getD 3 0 * 256 + resp.getD 4 0 ∧
      info.flags = resp.getD 5 0 * 256 + resp.getD 6 0 ∧
      info.nonce = (resp.drop 7).take 16 := by
  refine ⟨{ mtu := resp.getD 2 0, unit := resp.getD 3 0 * 256 + resp.getD 4 0,
            flags := resp.getD 5 0 * 256 + resp.getD 6 0, nonce := (resp.drop 7).take 16,
            warned := true }, ?_, rfl, rfl, rfl, rfl, rfl⟩
  simp only [processHello]
  rw [if_neg (by omega), if_neg hbad]

/-- Witness for C9: a hello whose byte 0 is `0x00` (not `0x01`) against
protocol version 10 still parses into device info. -/
theorem helloCheck_logs_and_continues_witness :
    ∃ info, processHello
        [0, 10, 100, 1, 2, 3, 4, 9, 9, 9, 9, 9, 9, 9, 9, 9, 9, 9, 9, 9, 9, 9, 9] 10 =
        .ok info ∧ info.warned = true ∧ info.mtu = 100 ∧ info.unit = 258 ∧
      info.flags = 772 ∧
      info.nonce = [9, 9, 9, 9, 9, 9, 9, 9, 9, 9, 9, 9, 9, 9, 9, 9] :=
  helloCheck_logs_and_continues
    [0, 10, 100, 1, 2, 3, 4, 9, 9, 9, 9, 9, 9, 9, 9, 9, 9, 9, 9, 9, 9, 9, 9] 10
    (by decide) (by decide)

/-- **C9 counterexample**: on a 23-byte hello whose byte 0 is `0x00` the code
returns parsed device info (`mtu = 100, unit = 258, flags = 772`) instead of
failing with a protocol error before parsing, refuting the claim. -/
theorem helloCheck_counterexample :
    (processHello
        [0, 10, 100, 1, 2, 3, 4, 9, 9, 9, 9, 9, 9, 9, 9, 9, 9, 9, 9, 9, 9, 9, 9] 10).isOk =
      true ∧
    processHello [0, 10, 100, 1, 2, 3, 4, 9, 9, 9, 9, 9, 9, 9, 9, 9, 9, 9, 9, 9, 9, 9, 9] 10 =
      .ok { mtu := 100, unit := 258, flags := 772,
            nonce := [9, 9, 9, 9, 9, 9, 9, 9, 9, 9, 9, 9, 9, 9, 9, 9], warned := true } := by
  exact ⟨by decide, by decide⟩

/-- In a 16-byte-nonce authenticated state below the counter overflow bound,
`send` succeeds, transmits the current outgoing counter little-endian in the
clear 4-byte frame header, and increments the counter by exactly 1. -/
theorem send_ok (s : ClientState) (packet : Bytes)
    (hs : s.connectionState = ConnectionState.AUTHENTICATED) (hn : s.nonce.length = 16)
    (hb : s.outPacketCount < 2 ^ 32) :
    ∃ frame, send s packet = .ok (frame, { s with outPacketCount := s.outPacketCount + 1 }) ∧
      frame.take 4 = toBytesLE 4 s.outPacketCount := by
  have hnl : (getNonce s s.outPacketCount).length = 16 := by
    simp only [getNonce, List.length_append, length_toBytesLE, List.length_take,
      List.length_drop]
    omega
  have hhead : (toBytesLE 4 s.outPacketCount ++ [7] ++ packet).take 4 =
      toBytesLE 4 s.outPacketCount := by
    rw [List.append_assoc]
    exact List.take_left' (length_toBytesLE 4 s.outPacketCount)
  refine ⟨((toBytesLE 4 s.outPacketCount ++ [7] ++ packet).take 4 ++
      ctrBlocks s.encryptor.blockEnc (getNonce s s.outPacketCount) 0
        ((toBytesLE 4 s.outPacketCount ++ [7] ++ packet).drop 4)) ++
      s.encryptor.cmacF ((toBytesLE 4 s.outPacketCount ++ [7] ++ packet).take 4 ++
        ctrBlocks s.encryptor.blockEnc (getNonce s s.outPacketCount) 0
          ((toBytesLE 4 s.outPacketCount ++ [7] ++ packet).drop 4)), ?_, ?_⟩
  · simp only [send]
    rw [if_neg (by simp [hs]), if_neg (by omega), encryptThenMac_ok _ _ _ hnl]
  · have hl4 : ((toBytesLE 4 s.outPacketCount ++ [7] ++ packet).take 4).length = 4 := by
      simp only [List.length_take, List.length_append, length_toBytesLE, List.length_cons,
        List.length_nil]
      omega
    rw [List.append_assoc, List.take_left' hl4]
    exact hhead

/-- Iterating `send` from counter value `c` transmits `c, c + 1, c + 2, …` in
the clear headers, one value per frame. -/
theorem sendTrace_counts :
    ∀ (pkts : List Bytes) (s : ClientState),
      s.connectionState = ConnectionState.AUTHENTICATED → s.nonce.length = 16 →
      s.outPacketCount + pkts.length ≤ 2 ^ 32 →
      (sendTrace s pkts).1 =
        (List.range pkts.length).map (fun i => s.outPacketCount + i) := by
  intro pkts
  induction pkts with
  | nil =>
    intro s _ _ _
    rfl
  | cons p ps ih =>
    intro s hs hn hb
    obtain ⟨frame, hsend, htake⟩ := send_ok s p hs hn (by simp at hb; omega)
    simp only [sendTrace, hsend]
    have h2_32 : (256 : Nat) ^ 4 = 2 ^ 32 := by norm_num
    rw [htake, fromBytesLE_toBytesLE 4 s.outPacketCount (by rw [h2_32]; simp at hb; omega)]
    rw [ih { s with outPacketCount := s.outPacketCount + 1 } (by simpa using hs)
      (by simpa using hn) (by simp at hb ⊢; omega)]
    simp only [List.length_cons, List.range_succ_eq_map, List.map_cons, Nat.add_zero,
      List.map_map]
    congr 1
    apply List.map_eq_map_iff.mpr
    intro a _
    simp only [Function.comp_apply, Nat.succ_eq_add_one]
    omega

/-- **C4** (confirmed).  Outgoing counter monotonicity: `connect` resets the
outgoing counter to 2 (and the incoming one to 1); a successful `send`
transmits the current counter value as the clear little-endian 4-byte header
and increments the counter by exactly 1; hence the counter values transmitted
over a connection are `2, 3, 4, …` — a strictly increasing sequence starting
at 2. -/
theorem outgoing_counter_monotone :
    (∀ s₀ : ClientState, s₀.connectionState = ConnectionState.NONE →
      connect s₀ = .ok { s₀ with outPacketCount := 2, inPacketCount := 1,
                                 connectionState := ConnectionState.CONNECTED }) ∧
    (∀ (s : ClientState) (packet : Bytes),
      s.connectionState = ConnectionState.AUTHENTICATED → s.nonce.length = 16 →
      s.outPacketCount < 2 ^ 32 →
      ∃ frame, send s packet = .ok (frame, { s with outPacketCount := s.outPacketCount + 1 }) ∧
        fromBytesLE (frame.take 4) = s.outPacketCount) ∧
    (∀ (s : ClientState) (pkts : List Bytes),
      s.connectionState = ConnectionState.AUTHENTICATED → s.nonce.length = 16 →
      s.outPacketCount = 2 → pkts.length ≤ 2 ^ 32 - 2 →
      (sendTrace s pkts).1 = (List.range pkts.length).map (fun i => 2 + i) ∧
      List.Chain' (fun a b => a < b) (sendTrace s pkts).1 ∧
      (pkts ≠ [] → (sendTrace s pkts).1.headD 0 = 2)) := by
  refine ⟨?_, ?_, ?_⟩
  · intro s₀ h0
    simp only [connect]
    rw [if_neg (by simp [h0])]
  · intro s packet hs hn hb
    obtain ⟨frame, hsend, htake⟩ := send_ok s packet hs hn hb
    refine ⟨frame, hsend, ?_⟩
    rw [htake, fromBytesLE_toBytesLE 4 s.outPacketCount (by norm_num; omega)]
  · intro s pkts hs hn h2 hbound
    have htrace := sendTrace_counts pkts s hs hn (by omega)
    rw [h2] at htrace
    refine ⟨htrace, ?_, ?_⟩
    · rw [htrace]
      refine List.Pairwise.chain' ?_
      rw [List.pairwise_map]
      refine List.Pairwise.imp ?_ (List.pairwise_lt_range _)
      intro a b hab
      omega
    · intro hne
      rw [htrace]
      obtain ⟨m, hm⟩ : ∃ m, pkts.length = m + 1 :=
        ⟨pkts.length - 1, by cases pkts with
          | nil => exact absurd rfl hne
          | cons a l => simp⟩
      rw [hm, List.range_succ_eq_map]
      simp

/-- Witness for C4 at a concrete connection: connect from the idle state,
one send from the authenticated state, and a three-packet trace transmitting
`[2, 3, 4]`. -/
theorem outgoing_counter_monotone_witness :
    connect { sampleAuthState with connectionState := ConnectionState.NONE } =
      .ok { sampleAuthState with
              connectionState := ConnectionState.CONNECTED, outPacketCount := 2,
              inPacketCount := 1 } ∧
    (∃ frame, send sampleAuthState [1] =
        .ok (frame, { sampleAuthState with
                        outPacketCount := sampleAuthState.outPacketCount + 1 }) ∧
      fromBytesLE (frame.take 4) = sampleAuthState.outPacketCount) ∧
    (sendTrace sampleAuthState [[1], [2], [3]]).1 =
      (List.range ([[1], [2], [3]] : List Bytes).length).map (fun i => 2 + i) ∧
    List.Chain' (fun a b => a < b) (sendTrace sampleAuthState [[1], [2], [3]]).1 ∧
    (([[1], [2], [3]] : List Bytes) ≠ [] →
      (sendTrace sampleAuthState [[1], [2], [3]]).1.headD 0 = 2) := by
  have h1 := outgoing_counter_monotone.1
    { sampleAuthState with connectionState := ConnectionState.NONE } rfl
  have h2 := outgoing_counter_monotone.2.1 sampleAuthState [1] rfl (by decide) (by decide)
  have h3 := outgoing_counter_monotone.2.2 sampleAuthState [[1], [2], [3]] rfl
    (by decide) rfl (by decide)
  exact ⟨h1, h2, h3.1, h3.2.1, h3.2.2⟩

end CasambiBt
